import Mathlib

/-!
Verification of the layout synthesizer and codegen lowering of the
dataflow-jit crate (`src/codegen/layout.rs` and `src/codegen/mod.rs`).

The row layout algorithm (`Layout::from_row`), its accessors, the row
allocator, and the relevant expression/terminator lowering rules are
embedded as executable Lean definitions.  Machine integers are modelled
as `Nat`; the running `size` accumulator of `from_row` is a Rust `u32`,
so the construction is parametrised by a `wrap` function that is `id`
for the idealised (no-overflow) semantics and `· % 2 ^ 32` for the
release-mode wrapping semantics.
-/

/-- Logical column types (`ir::RowType`). -/
inductive RowType
  | unit
  | bool
  | u16
  | i16
  | u32
  | i32
  | u64
  | i64
  | f32
  | f64
  | string
deriving DecidableEq

/-- Physical primitive types (`codegen::layout::Type`). -/
inductive Ty
  | u8
  | i8
  | u16
  | i16
  | u32
  | i32
  | u64
  | i64
  | f32
  | f64
  | ptr
  | bool
  | usize
deriving DecidableEq

/-- Target description: the pointer width in bytes.  Cranelift's
`TargetFrontendConfig` only admits 16-, 32- and 64-bit pointers. -/
structure Target where
  pointerBytes : Nat
  valid : pointerBytes = 2 ∨ pointerBytes = 4 ∨ pointerBytes = 8

/-- The 64-bit target used by the repository's tests. -/
def target64 : Target := ⟨8, Or.inr (Or.inr rfl)⟩

namespace Ty

/-- `Type::size`. -/
def size (ty : Ty) (target : Target) : Nat :=
  match ty with
  | ptr | usize => target.pointerBytes
  | u64 | i64 | f64 => 8
  | u32 | i32 | f32 => 4
  | u16 | i16 => 2
  | u8 | i8 | bool => 1

/-- `Type::align` (the source duplicates the `size` match arm for arm). -/
def align (ty : Ty) (target : Target) : Nat :=
  match ty with
  | ptr | usize => target.pointerBytes
  | u64 | i64 | f64 => 8
  | u32 | i32 | f32 => 4
  | u16 | i16 => 2
  | u8 | i8 | bool => 1

/-- `Type::bits`. -/
def bits (ty : Ty) (target : Target) : Nat :=
  match ty with
  | ptr | usize => 8 * target.pointerBytes
  | u64 | i64 | f64 => 64
  | u32 | i32 | f32 => 32
  | u16 | i16 => 16
  | u8 | i8 | bool => 8

/-- `Type::is_u8`. -/
def is_u8 (ty : Ty) : Bool :=
  match ty with
  | u8 => true
  | _ => false

/-- `Type::from_row_type`: `None` exactly for `RowType::Unit`;
strings are represented as a pointer to a length-prefixed string. -/
def from_row_type : RowType → Option Ty
  | RowType.bool => some bool
  | RowType.u16 => some u16
  | RowType.i16 => some i16
  | RowType.u32 => some u32
  | RowType.i32 => some i32
  | RowType.u64 => some u64
  | RowType.i64 => some i64
  | RowType.f32 => some f32
  | RowType.f64 => some f64
  | RowType.string => some ptr
  | RowType.unit => none

end Ty

/-- A source `RowLayout`: ordered column types paired with their
per-column nullability flag (`rows()` zipped with `nullability()`). -/
abbrev RowLayoutSrc := List (RowType × Bool)

/-- `padding_needed_for`.  The source computes this with wrapping u32
bit-twiddling (`(size + align - 1) & !(align - 1) - size`), which for
the power-of-two alignments in use equals this remainder form. -/
def padding_needed_for (size align : Nat) : Nat :=
  (align - size % align) % align

/-- `bits_to_bitflags`: one `U8` placeholder per eight required flags. -/
def bits_to_bitflags (required_bitflags : Nat) : List Ty :=
  List.replicate (required_bitflags / 8 + if required_bitflags % 8 != 0 then 1 else 0) Ty.u8

/-- The mutable locals of `Layout::from_row` while walking the columns. -/
structure BuildState where
  bitflags : List Ty
  bitflag_indices : List Nat
  offsets : List Nat
  types : List Ty
  index_mappings : List Nat
  index : Nat
  size : Nat
  align : Nat
deriving DecidableEq

/-- The `while required_padding != 0` loop: pop bitset placeholders from
the pool into the padding, one byte at a time, until the padding or the
pool runs out.  Returns the new state and the remaining padding. -/
def fill_padding (wrap : Nat → Nat) : BuildState → Nat → BuildState × Nat
  | st, 0 => (st, 0)
  | st, p + 1 =>
    match st.bitflags with
    | [] => (st, p + 1)
    | flag :: rest =>
      fill_padding wrap
        { st with
          bitflags := rest
          bitflag_indices := st.bitflag_indices ++ [st.index]
          offsets := st.offsets ++ [st.size]
          types := st.types ++ [flag]
          size := wrap (st.size + 1)
          align := max st.align 1
          index := st.index + 1 }
        p

/-- One iteration of the `for row in layout.rows()` loop. -/
def layout_step (wrap : Nat → Nat) (target : Target) (st : BuildState)
    (col : RowType × Bool) : BuildState :=
  match Ty.from_row_type col.1 with
  | none => { st with index_mappings := st.index_mappings ++ [st.index] }
  | some ty =>
    let field_align := ty.align target
    let st := { st with align := max st.align field_align }
    let filled := fill_padding wrap st (padding_needed_for st.size field_align)
    let st := filled.1
    let size := wrap (st.size + filled.2)
    { st with
      offsets := st.offsets ++ [size]
      size := wrap (size + ty.size target)
      index_mappings := st.index_mappings ++ [st.index]
      types := st.types ++ [ty]
      index := st.index + 1 }

/-- The `for flag in bitflags` tail loop: append every bitset byte still
in the pool at the current end of the layout. -/
def flush_bitflags (wrap : Nat → Nat) : List Ty → BuildState → BuildState
  | [], st => st
  | flag :: rest, st =>
    flush_bitflags wrap rest
      { st with
        bitflag_indices := st.bitflag_indices ++ [st.index]
        offsets := st.offsets ++ [st.size]
        types := st.types ++ [flag]
        size := wrap (st.size + 1)
        align := max st.align 1
        index := st.index + 1 }

/-- The bit-position assignment loop at the end of `Layout::from_row`
(source lines 246-264), including its handling of a full bitset byte. -/
def assign_bits_go (target : Target) (bitflag_indices : List Nat) (types : List Ty) :
    Nat → Nat → List Bool → List (Option (Nat × Nat))
  | _, _, [] => []
  | flag_idx, bit_idx, false :: rest =>
    none :: assign_bits_go target bitflag_indices types flag_idx bit_idx rest
  | flag_idx, bit_idx, true :: rest =>
    let flag_offset := bitflag_indices.getD flag_idx 0
    let flag_bits := (types.getD flag_offset Ty.u8).bits target
    if bit_idx < flag_bits then
      some (bitflag_indices.getD flag_idx 0, bit_idx) ::
        assign_bits_go target bitflag_indices types flag_idx (bit_idx + 1) rest
    else
      some (bitflag_indices.getD (flag_idx + 1) 0, 0) ::
        assign_bits_go target bitflag_indices types (flag_idx + 1) 0 rest

/-- `codegen::layout::Layout`. -/
structure Layout where
  size : Nat
  align : Nat
  types : List Ty
  offsets : List Nat
  index_mappings : List Nat
  bitflag_mappings : List (Option (Nat × Nat))
deriving DecidableEq

/-- `Layout::from_row`, parametrised by the `u32` wrapping behaviour of
the running `size` accumulator. -/
def from_row_aux (wrap : Nat → Nat) (layout : RowLayoutSrc) (target : Target) : Layout :=
  let required_bitflags := (layout.filter (·.2)).length
  let st0 : BuildState :=
    { bitflags := bits_to_bitflags required_bitflags
      bitflag_indices := []
      offsets := []
      types := []
      index_mappings := []
      index := 0
      size := 0
      align := 1 }
  let st1 := layout.foldl (layout_step wrap target) st0
  let st2 := flush_bitflags wrap st1.bitflags { st1 with bitflags := [] }
  { size := wrap (st2.size + padding_needed_for st2.size st2.align)
    align := st2.align
    types := st2.types
    offsets := st2.offsets
    index_mappings := st2.index_mappings
    bitflag_mappings := assign_bits_go target st2.bitflag_indices st2.types 0 0 (layout.map (·.2)) }

namespace Layout

/-- `Layout::from_row` with the idealised `Nat` size arithmetic: this is
what the source computes whenever no `u32` addition overflows (in debug
builds an overflowing addition panics instead). -/
def from_row (layout : RowLayoutSrc) (target : Target) : Layout :=
  from_row_aux id layout target

/-- `Layout::from_row` with release-mode `u32` semantics: every addition
to the running `size` wraps modulo `2 ^ 32`. -/
def from_row_u32 (layout : RowLayoutSrc) (target : Target) : Layout :=
  from_row_aux (· % 2 ^ 32) layout target

/-- `Layout::is_zero_sized`. -/
def is_zero_sized (L : Layout) : Bool := L.size == 0

/-- `Layout::is_nullable`. -/
def is_nullable (L : Layout) (column : Nat) : Bool :=
  (L.bitflag_mappings.getD column none).isSome

/-- `Layout::offset_of`. -/
def offset_of (L : Layout) (column : Nat) : Nat :=
  L.offsets.getD (L.index_mappings.getD column 0) 0

/-- `Layout::type_of`. -/
def type_of (L : Layout) (column : Nat) : Ty :=
  L.types.getD (L.index_mappings.getD column 0) Ty.u8

/-- `Layout::nullability_of`: returns the bitset byte's type, its offset
and the bit position.  The source unwraps the bitflag mapping and panics
for non-nullable columns; panics (including out-of-range indexing) are
modelled as `none`. -/
def nullability_of (L : Layout) (column : Nat) : Option (Ty × Nat × Nat) :=
  match L.bitflag_mappings.getD column none with
  | none => none
  | some (idx, bit) =>
    match L.types.get? idx, L.offsets.get? idx with
    | some ty, some off => some (ty, off, bit)
    | _, _ => none

/-- `Layout::alloc`.  The system allocator is an oracle mapping a
`(size, align)` request to an address, `0` meaning allocation failure
(a null pointer, turned into `None` by `NonNull::new`).  The zero-sized
path returns `NonNull::dangling()`, which for `u8` is address `1`. -/
def alloc (L : Layout) (sys : Nat → Nat → Nat) : Option Nat :=
  if L.is_zero_sized then
    some 1
  else if sys L.size L.align = 0 then
    none
  else
    some (sys L.size L.align)

end Layout

/-! ### Codegen (`src/codegen/mod.rs`) -/

/-- `NullSigil`: the bit value representing null (discriminants 0 and 1). -/
inductive NullSigil
  | zero
  | one
deriving DecidableEq

namespace NullSigil

/-- `NullSigil::is_zero`. -/
def is_zero : NullSigil → Bool
  | zero => true
  | one => false

/-- `NullSigil::is_one`. -/
def is_one : NullSigil → Bool
  | zero => false
  | one => true

/-- The `ctx.null_sigil as u8` cast used as the `memset` fill value in
the `Expr::NullRow` arm: the enum discriminant, `0` or `1`. -/
def toByte : NullSigil → Nat
  | zero => 0
  | one => 1

end NullSigil

/-- `Ctx::stack_slot_for_layout` allocates an explicit stack slot of the
layout's size in bytes. -/
def stack_slot_for_layout (L : Layout) : Nat := L.size

/-- The bytes of a row right after the `Expr::NullRow` lowering ran: a
stack slot of `layout.size` bytes, `memset_imm`-filled with the
`null_sigil as u8` byte. -/
def null_row_bytes (sigil : NullSigil) (L : Layout) : List Nat :=
  List.replicate L.size sigil.toByte

/-- The `Expr::IsNull` test on the loaded bitset byte: `band_imm` with
`1 << bit_idx`, then `icmp_imm NotEqual 0` under sigil `One` and
`icmp_imm Equal 0` under sigil `Zero`. -/
def is_null_bit (sigil : NullSigil) (bit_idx : Nat) (bitset : Nat) : Bool :=
  if sigil.is_one then
    decide (bitset &&& (1 <<< bit_idx) ≠ 0)
  else
    decide (bitset &&& (1 <<< bit_idx) = 0)

/-- The `Expr::SetNull` update of the loaded bitset byte for an
immediate boolean rvalue: `bitset | (1 << bit_idx)` when the bit should
be set, `bitset & !(1 << bit_idx)` otherwise (the complement truncated
to the 8-bit width of the loaded byte). -/
def set_null_imm_byte (sigil : NullSigil) (set_null : Bool) (bit_idx : Nat) (bitset : Nat) : Nat :=
  let mask := 1 <<< bit_idx
  if (sigil.is_one && set_null) || (sigil.is_zero && !set_null) then
    bitset ||| mask
  else
    bitset &&& (255 ^^^ mask)

/-- The `Expr::SetNull` update for a computed rvalue: both the set-bit
and unset-bit results are computed and `select`ed on the runtime value
(`select` picks its first operand when the condition is non-zero). -/
def set_null_val_byte (sigil : NullSigil) (is_null : Nat) (bit_idx : Nat) (bitset : Nat) : Nat :=
  let mask := 1 <<< bit_idx
  let set_bit := bitset ||| mask
  let unset_bit := bitset &&& (255 ^^^ mask)
  if sigil.is_one then
    if is_null ≠ 0 then set_bit else unset_bit
  else
    if is_null ≠ 0 then unset_bit else set_bit

/-- Executing the lowered `IsNull(row, column)` on a row held as a byte
buffer: load the bitset byte at the column's bitset offset and test the
column's bit.  `none` models the panic on a non-nullable column. -/
def row_is_null (sigil : NullSigil) (L : Layout) (column : Nat) (row : List Nat) :
    Option Bool :=
  (L.nullability_of column).map fun tob =>
    is_null_bit sigil tob.2.2 (row.getD tob.2.1 0)

/-- Executing the lowered `SetNull(row, column, imm b)`: load the bitset
byte, update the column's bit, store it back at the same offset. -/
def row_set_null_imm (sigil : NullSigil) (L : Layout) (column : Nat) (b : Bool)
    (row : List Nat) : Option (List Nat) :=
  (L.nullability_of column).map fun tob =>
    row.set tob.2.1 (set_null_imm_byte sigil b tob.2.2 (row.getD tob.2.1 0))

/-- Executing the lowered `SetNull(row, column, expr v)` where `v` is
the runtime value of the computed boolean. -/
def row_set_null_val (sigil : NullSigil) (L : Layout) (column : Nat) (v : Nat)
    (row : List Nat) : Option (List Nat) :=
  (L.nullability_of column).map fun tob =>
    row.set tob.2.1 (set_null_val_byte sigil v tob.2.2 (row.getD tob.2.1 0))

/-- IR constants (`ir::Constant`), as far as terminator lowering needs
them. -/
inductive Constant
  | unit
  | bool (b : Bool)
  | int (n : Int)
deriving DecidableEq

/-- An `RValue` whose expression operand has already been resolved to
its runtime value through `ctx.exprs`. -/
inductive RValueV
  | expr (value : Nat)
  | imm (c : Constant)
deriving DecidableEq

/-- The builder instructions emitted for a `Terminator::Branch`. -/
inductive CInst
  | brz (cond : Nat) (target : Nat)
  | jump (target : Nat)
deriving DecidableEq

/-- The `Terminator::Branch` arm of `Ctx::codegen_terminator`: emit
`brz cond, truthy` then `jump falsy` and enqueue both successors.  An
immediate condition hits `todo!()` (modelled as `none`). -/
def codegen_branch (cond : RValueV) (truthy falsy : Nat) :
    Option (List CInst × List Nat) :=
  match cond with
  | RValueV.expr v => some ([CInst.brz v truthy, CInst.jump falsy], [truthy, falsy])
  | RValueV.imm _ => none

/-- Executes a straight-line run of branch instructions: `brz` transfers
control to its target when the condition is zero, `jump` always. -/
def run_branch : List CInst → Option Nat
  | [] => none
  | CInst.brz c t :: rest => if c = 0 then some t else run_branch rest
  | CInst.jump t :: _ => some t

/-- Modelled from the spec: the branch semantics the specification
asserts for `Branch(cond, truthy, falsy)`, namely
`if cond then truthy else falsy`. -/
def branch_spec_if_then_else (cond truthy falsy : Nat) : Nat :=
  if cond ≠ 0 then truthy else falsy

/-- An IR `Signature`: argument layout ids and the return layout id. -/
structure Signature where
  args : List Nat
  ret : Nat

/-- A machine signature: parameter and return types given by their bit
width (`AbiParam::new(self.module.isa().pointer_type())`). -/
structure ClifSignature where
  params : List Nat
  returns : List Nat
deriving DecidableEq

/-- The target's pointer type, as a bit width. -/
def pointer_type (target : Target) : Nat := 8 * target.pointerBytes

/-- `Codegen::build_signature`: one pointer-width return iff the return
layout is non-zero-sized, then one pointer-width parameter per argument
layout.  The layout cache resolves a layout id through
`Layout::from_row`. -/
def build_signature (cache : Nat → RowLayoutSrc) (target : Target)
    (sig : Signature) : ClifSignature :=
  let ret := Layout.from_row (cache sig.ret) target
  { returns := if !ret.is_zero_sized then [pointer_type target] else []
    params := sig.args.map fun _ => pointer_type target }

/-! ### Definitions used by the proofs -/

/-- The possible alignment values on a given target. -/
def AlignOk (target : Target) (a : Nat) : Prop :=
  a = 1 ∨ a = 2 ∨ a = 4 ∨ a = 8 ∨ a = target.pointerBytes

/-- Monotone-growth relation between two states of the construction. -/
structure BExt (st st' : BuildState) : Prop where
  off : st.offsets <+: st'.offsets
  ty : st.types <+: st'.types
  im : st.index_mappings <+: st'.index_mappings
  bfi : st.bitflag_indices <+: st'.bitflag_indices
  size_le : st.size ≤ st'.size

/-- The loop invariant of `Layout::from_row`'s construction phase. -/
structure LInv (target : Target) (st : BuildState) : Prop where
  len_off : st.offsets.length = st.types.length
  idx_eq : st.index = st.types.length
  align_pos : 1 ≤ st.align
  align_ok : AlignOk target st.align
  entry_align : ∀ k, k < st.types.length →
    st.offsets.getD k 0 % (st.types.getD k Ty.u8).align target = 0
  entry_fit : ∀ k, k < st.types.length →
    st.offsets.getD k 0 + (st.types.getD k Ty.u8).size target ≤ st.size
  flags_idx : ∀ i ∈ st.bitflag_indices, i < st.types.length ∧ st.types.getD i Ty.u8 = Ty.u8
  pool_u8 : ∀ t ∈ st.bitflags, t = Ty.u8

/-- The initial locals of `Layout::from_row`. -/
def init_state (layout : RowLayoutSrc) : BuildState :=
  { bitflags := bits_to_bitflags (layout.filter (·.2)).length
    bitflag_indices := []
    offsets := []
    types := []
    index_mappings := []
    index := 0
    size := 0
    align := 1 }

/-- State after the column walk. -/
def build1 (wrap : Nat → Nat) (target : Target) (layout : RowLayoutSrc) : BuildState :=
  layout.foldl (layout_step wrap target) (init_state layout)

/-- State after the tail flush of leftover bitset bytes. -/
def build2 (wrap : Nat → Nat) (target : Target) (layout : RowLayoutSrc) : BuildState :=
  flush_bitflags wrap (build1 wrap target layout).bitflags
    { build1 wrap target layout with bitflags := [] }

/-! ### Helper lemmas -/

theorem getD_append_left {α : Type} {l₁ l₂ : List α} {n : Nat} (d : α)
    (h : n < l₁.length) : (l₁ ++ l₂).getD n d = l₁.getD n d := by
  simp [List.getD_eq_getElem?_getD, List.getElem?_append_left h]

theorem getD_append_length {α : Type} (l : List α) (x d : α) :
    (l ++ [x]).getD l.length d = x := by
  simp [List.getD_eq_getElem?_getD, List.getElem?_append_right (Nat.le_refl _)]

theorem getD_eq_of_lt {α : Type} {l : List α} {n : Nat} (d : α) (h : n < l.length) :
    l.getD n d = l.get ⟨n, h⟩ := by
  simp [List.getD_eq_getElem?_getD, List.getElem?_eq_getElem h]

theorem mem_of_getD_eq_some {α : Type} {l : List (Option α)} {n : Nat} {x : α}
    (h : l.getD n none = some x) : some x ∈ l := by
  by_cases hn : n < l.length
  · rw [getD_eq_of_lt none hn] at h
    exact h ▸ List.get_mem l n hn
  · rw [List.getD_eq_getElem?_getD, List.getElem?_eq_none (Nat.le_of_not_lt hn)] at h
    simp at h

theorem pad_mod (s a : Nat) (h : 1 ≤ a) : (s + padding_needed_for s a) % a = 0 := by
  unfold padding_needed_for
  rcases Nat.eq_zero_or_pos (s % a) with h0 | hpos
  · simp [h0, Nat.mod_self, Nat.add_mod, Nat.mod_mod_of_dvd]
  · have hlt : s % a < a := Nat.mod_lt _ (Nat.lt_of_lt_of_le Nat.zero_lt_one h)
    rw [Nat.mod_eq_of_lt (by omega : a - s % a < a)]
    have hle : s % a ≤ s := Nat.mod_le _ _
    have : s + (a - s % a) = (s - s % a) + a := by omega
    rw [this, Nat.add_mod_right]
    have : s - s % a = a * (s / a) := by
      have := Nat.div_add_mod s a
      omega
    simp [this, Nat.mul_mod_right]

theorem Target.pb_pos (target : Target) : 1 ≤ target.pointerBytes := by
  rcases target.valid with h | h | h <;> omega

theorem Ty.align_pos (ty : Ty) (target : Target) : 1 ≤ ty.align target := by
  cases ty <;> simp [Ty.align] <;> exact target.pb_pos

theorem Ty.size_pos (ty : Ty) (target : Target) : 1 ≤ ty.size target := by
  cases ty <;> simp [Ty.size] <;> exact target.pb_pos

theorem Ty.align_mem (ty : Ty) (target : Target) : AlignOk target (ty.align target) := by
  cases ty <;> simp [Ty.align, AlignOk]

theorem AlignOk.max {target : Target} {a b : Nat} (ha : AlignOk target a)
    (hb : AlignOk target b) : AlignOk target (max a b) := by
  rcases max_choice a b with h | h <;> rw [h] <;> assumption

theorem AlignOk.one (target : Target) : AlignOk target 1 := Or.inl rfl

theorem BExt.refl (st : BuildState) : BExt st st :=
  ⟨List.prefix_refl _, List.prefix_refl _, List.prefix_refl _, List.prefix_refl _, Nat.le_refl _⟩

theorem BExt.trans {a b c : BuildState} (h1 : BExt a b) (h2 : BExt b c) : BExt a c :=
  ⟨h1.off.trans h2.off, h1.ty.trans h2.ty, h1.im.trans h2.im, h1.bfi.trans h2.bfi,
    Nat.le_trans h1.size_le h2.size_le⟩

theorem getD_stable_under_extension {α : Type} {l l' : List α} (h : l <+: l') {n : Nat} (d : α)
    (hn : n < l.length) : l'.getD n d = l.getD n d := by
  obtain ⟨t, rfl⟩ := h
  exact getD_append_left d hn

/-- Appending one bitset byte (shared shape of the `fill_padding` body
and the tail flush) preserves the invariant. -/
theorem inv_push_flag {target : Target} {st : BuildState} (inv : LInv target st)
    (newpool : List Ty) (hpool : ∀ t ∈ newpool, t = Ty.u8)
    (flag : Ty) (hflag : flag = Ty.u8) :
    LInv target
      { st with
        bitflags := newpool
        bitflag_indices := st.bitflag_indices ++ [st.index]
        offsets := st.offsets ++ [st.size]
        types := st.types ++ [flag]
        size := st.size + 1
        align := max st.align 1
        index := st.index + 1 } := by
  subst hflag
  constructor
  · simp [inv.len_off]
  · simp [inv.idx_eq]
  · exact le_max_of_le_left inv.align_pos
  · rw [max_eq_left inv.align_pos]; exact inv.align_ok
  · intro k hk
    have hlo := inv.len_off
    simp only [List.length_append, List.length_cons, List.length_nil] at hk
    rcases Nat.lt_or_ge k st.types.length with h | h
    · rw [getD_append_left _ (by omega : k < st.offsets.length),
        getD_append_left _ h]
      exact inv.entry_align k h
    · have hk' : k = st.types.length := by omega
      subst hk'
      rw [← inv.len_off, getD_append_length]
      rw [inv.len_off, getD_append_length]
      simp [Ty.align, Nat.mod_one]
  · intro k hk
    have hlo := inv.len_off
    simp only [List.length_append, List.length_cons, List.length_nil] at hk
    rcases Nat.lt_or_ge k st.types.length with h | h
    · rw [getD_append_left _ (by omega : k < st.offsets.length),
        getD_append_left _ h]
      exact Nat.le_trans (inv.entry_fit k h) (Nat.le_succ _)
    · have hk' : k = st.types.length := by omega
      subst hk'
      rw [← inv.len_off, getD_append_length]
      rw [inv.len_off, getD_append_length]
      simp [Ty.size]
  · intro i hi
    simp only [List.mem_append, List.mem_cons, List.mem_singleton] at hi
    rcases hi with hi | hi
    · obtain ⟨hlt, hty⟩ := inv.flags_idx i hi
      refine ⟨by simp; omega, ?_⟩
      rw [getD_append_left _ hlt]
      exact hty
    · rcases hi with hi | hi
      · subst hi
        rw [inv.idx_eq]
        exact ⟨by simp, getD_append_length _ _ _⟩
      · simp at hi
  · intro t ht
    exact hpool t ht

theorem fill_padding_spec {target : Target} :
    ∀ (p : Nat) (st : BuildState), LInv target st →
      LInv target (fill_padding id st p).1 ∧
      BExt st (fill_padding id st p).1 ∧
      (fill_padding id st p).1.size + (fill_padding id st p).2 = st.size + p ∧
      (fill_padding id st p).1.index_mappings = st.index_mappings ∧
      (fill_padding id st p).1.align = st.align ∧
      (fill_padding id st p).1.bitflag_indices.length + (fill_padding id st p).1.bitflags.length
        = st.bitflag_indices.length + st.bitflags.length
  | 0, st, inv => ⟨inv, BExt.refl st, rfl, rfl, rfl, rfl⟩
  | p + 1, st, inv => by
    rcases h : st.bitflags with _ | ⟨flag, rest⟩
    · have hv : fill_padding id st (p + 1) = (st, p + 1) := by
        simp [fill_padding, h]
      rw [hv]
      exact ⟨inv, BExt.refl st, rfl, rfl, rfl, by simp [h]⟩
    · have hu8 : flag = Ty.u8 := inv.pool_u8 flag (h ▸ List.mem_cons_self flag rest)
      have hv : fill_padding id st (p + 1) =
          fill_padding id
            { st with
              bitflags := rest
              bitflag_indices := st.bitflag_indices ++ [st.index]
              offsets := st.offsets ++ [st.size]
              types := st.types ++ [flag]
              size := st.size + 1
              align := max st.align 1
              index := st.index + 1 } p := by
        simp [fill_padding, h]
      have inv' : LInv target
          { st with
            bitflags := rest
            bitflag_indices := st.bitflag_indices ++ [st.index]
            offsets := st.offsets ++ [st.size]
            types := st.types ++ [flag]
            size := st.size + 1
            align := max st.align 1
            index := st.index + 1 } := by
        have hpush := inv_push_flag inv rest
          (fun t ht => inv.pool_u8 t (h ▸ List.mem_cons_of_mem flag ht)) flag hu8
        simpa using hpush
      obtain ⟨i1, e1, s1, m1, a1, b1⟩ := fill_padding_spec p _ inv'
      rw [hv]
      refine ⟨i1, ?_, by simp at s1 ⊢; omega, by simpa using m1,
        by rw [a1]; exact max_eq_left inv.align_pos, ?_⟩
      · refine BExt.trans ?_ e1
        exact ⟨List.prefix_append _ _, List.prefix_append _ _, List.prefix_refl _,
          List.prefix_append _ _, Nat.le_succ _⟩
      · rw [b1]
        simp [h]
        omega

theorem Ty.from_row_type_eq_none {rt : RowType} :
    Ty.from_row_type rt = none ↔ rt = RowType.unit := by
  cases rt <;> simp [Ty.from_row_type]

theorem layout_step_spec {target : Target} {st : BuildState} (inv : LInv target st)
    (col : RowType × Bool) :
    LInv target (layout_step id target st col) ∧
    BExt st (layout_step id target st col) ∧
    (∃ v, (layout_step id target st col).index_mappings = st.index_mappings ++ [v] ∧
      (col.1 ≠ RowType.unit → v < (layout_step id target st col).types.length)) ∧
    (layout_step id target st col).bitflag_indices.length +
        (layout_step id target st col).bitflags.length
      = st.bitflag_indices.length + st.bitflags.length := by
  rcases hty : Ty.from_row_type col.1 with _ | ty
  · have hres : layout_step id target st col =
        { st with index_mappings := st.index_mappings ++ [st.index] } := by
      simp only [layout_step, hty]
    rw [hres]
    refine ⟨⟨inv.len_off, inv.idx_eq, inv.align_pos, inv.align_ok, inv.entry_align,
        inv.entry_fit, inv.flags_idx, inv.pool_u8⟩,
      ⟨List.prefix_refl _, List.prefix_refl _, List.prefix_append _ _,
        List.prefix_refl _, Nat.le_refl _⟩,
      ⟨st.index, rfl, ?_⟩, rfl⟩
    intro hne
    exact absurd (Ty.from_row_type_eq_none.mp hty) hne
  · have inv_a : LInv target { st with align := max st.align (ty.align target) } :=
      ⟨inv.len_off, inv.idx_eq, Nat.le_trans inv.align_pos (Nat.le_max_left _ _),
        inv.align_ok.max (ty.align_mem target), inv.entry_align, inv.entry_fit,
        inv.flags_idx, inv.pool_u8⟩
    obtain ⟨inv1, ext1, sum1, m1, a1, b1⟩ :=
      fill_padding_spec (padding_needed_for st.size (ty.align target))
        { st with align := max st.align (ty.align target) } inv_a
    set st1 := (fill_padding id { st with align := max st.align (ty.align target) }
      (padding_needed_for st.size (ty.align target))).1 with hst1
    set rem := (fill_padding id { st with align := max st.align (ty.align target) }
      (padding_needed_for st.size (ty.align target))).2 with hrem
    have hres : layout_step id target st col =
        { st1 with
          offsets := st1.offsets ++ [st1.size + rem]
          size := st1.size + rem + ty.size target
          index_mappings := st1.index_mappings ++ [st1.index]
          types := st1.types ++ [ty]
          index := st1.index + 1 } := by
      simp only [layout_step, hty, id]
    have halign : (st1.size + rem) % ty.align target = 0 := by
      have := pad_mod st.size (ty.align target) (ty.align_pos target)
      simp only [sum1]
      simpa using this
    rw [hres]
    refine ⟨?_, ?_, ?_, b1⟩
    · constructor
      · simp [inv1.len_off]
      · simp [inv1.idx_eq]
      · exact inv1.align_pos
      · exact inv1.align_ok
      · intro k hk
        have hlo := inv1.len_off
        simp only [List.length_append, List.length_cons, List.length_nil] at hk
        rcases Nat.lt_or_ge k st1.types.length with hlt | hge
        · rw [getD_append_left _ (by omega : k < st1.offsets.length),
            getD_append_left _ hlt]
          exact inv1.entry_align k hlt
        · have hk' : k = st1.types.length := by omega
          subst hk'
          rw [← inv1.len_off, getD_append_length]
          rw [inv1.len_off, getD_append_length]
          exact halign
      · intro k hk
        have hlo := inv1.len_off
        simp only [List.length_append, List.length_cons, List.length_nil] at hk
        rcases Nat.lt_or_ge k st1.types.length with hlt | hge
        · rw [getD_append_left _ (by omega : k < st1.offsets.length),
            getD_append_left _ hlt]
          refine Nat.le_trans (inv1.entry_fit k hlt) ?_
          show st1.size ≤ st1.size + rem + ty.size target
          omega
        · have hk' : k = st1.types.length := by omega
          subst hk'
          rw [← inv1.len_off, getD_append_length]
          rw [inv1.len_off, getD_append_length]
      · intro i hi
        obtain ⟨hlt, htyi⟩ := inv1.flags_idx i hi
        refine ⟨by simp; omega, ?_⟩
        rw [getD_append_left _ hlt]
        exact htyi
      · exact inv1.pool_u8
    · refine BExt.trans ?_ (BExt.trans ext1 ?_)
      · exact ⟨List.prefix_refl _, List.prefix_refl _, List.prefix_refl _,
          List.prefix_refl _, Nat.le_refl _⟩
      · refine ⟨List.prefix_append _ _, List.prefix_append _ _, List.prefix_append _ _,
          List.prefix_refl _, ?_⟩
        show st1.size ≤ st1.size + rem + ty.size target
        omega
    · refine ⟨st1.index, by rw [m1], ?_⟩
      intro _
      rw [inv1.idx_eq]
      simp

theorem foldl_step_spec {target : Target} :
    ∀ (cols : List (RowType × Bool)) (st : BuildState), LInv target st →
      LInv target (cols.foldl (layout_step id target) st) ∧
      BExt st (cols.foldl (layout_step id target) st) ∧
      (cols.foldl (layout_step id target) st).bitflag_indices.length +
          (cols.foldl (layout_step id target) st).bitflags.length
        = st.bitflag_indices.length + st.bitflags.length ∧
      (cols.foldl (layout_step id target) st).index_mappings.length
        = st.index_mappings.length + cols.length
  | [], st, inv => ⟨inv, BExt.refl st, rfl, rfl⟩
  | col :: rest, st, inv => by
    obtain ⟨inv1, ext1, ⟨v, hv, _⟩, hb1⟩ := layout_step_spec inv col
    obtain ⟨inv2, ext2, hb2, hm2⟩ := foldl_step_spec rest (layout_step id target st col) inv1
    refine ⟨inv2, BExt.trans ext1 ext2, by simp [List.foldl_cons]; omega, ?_⟩
    simp only [List.foldl_cons, List.length_cons]
    rw [hm2, hv]
    simp
    omega

theorem foldl_step_im {target : Target} :
    ∀ (cols : List (RowType × Bool)) (st : BuildState), LInv target st →
      ∀ c, (hc : c < cols.length) → (cols.get ⟨c, hc⟩).1 ≠ RowType.unit →
        (cols.foldl (layout_step id target) st).index_mappings.getD
            (st.index_mappings.length + c) 0
          < (cols.foldl (layout_step id target) st).types.length
  | [], _, _, c, hc, _ => absurd hc (by simp)
  | col :: rest, st, inv, c, hc, hnu => by
    obtain ⟨inv1, ext1, ⟨v, hv, hvlt⟩, _⟩ := layout_step_spec inv col
    obtain ⟨inv2, ext2, _, _⟩ := foldl_step_spec rest (layout_step id target st col) inv1
    rcases c with _ | c
    · have hval : (List.foldl (layout_step id target) (layout_step id target st col)
          rest).index_mappings.getD st.index_mappings.length 0 = v := by
        rw [getD_stable_under_extension ext2.im _ (by rw [hv]; simp)]
        rw [hv, getD_append_length]
      simp only [List.foldl_cons, Nat.add_zero]
      rw [hval]
      exact Nat.lt_of_lt_of_le (hvlt (by simpa using hnu)) ext2.ty.length_le
    · have := foldl_step_im rest (layout_step id target st col) inv1 c
        (by simpa using hc) (by simpa using hnu)
      simp only [List.foldl_cons]
      rw [hv] at this
      have hidx : st.index_mappings.length + (c + 1)
          = (st.index_mappings ++ [v]).length + c := by
        simp
        omega
      rw [hidx]
      exact this

theorem flush_spec {target : Target} :
    ∀ (flags : List Ty) (st : BuildState), LInv target st → (∀ t ∈ flags, t = Ty.u8) →
      LInv target (flush_bitflags id flags st) ∧
      BExt st (flush_bitflags id flags st) ∧
      (flush_bitflags id flags st).bitflag_indices.length
        = st.bitflag_indices.length + flags.length ∧
      (flush_bitflags id flags st).index_mappings = st.index_mappings ∧
      (flush_bitflags id flags st).align = st.align ∧
      (flush_bitflags id flags st).size = st.size + flags.length
  | [], st, inv, _ => ⟨inv, BExt.refl st, rfl, rfl, rfl, rfl⟩
  | flag :: rest, st, inv, hu8 => by
    have hflag : flag = Ty.u8 := hu8 flag (List.mem_cons_self _ _)
    have inv' : LInv target
        { st with
          bitflag_indices := st.bitflag_indices ++ [st.index]
          offsets := st.offsets ++ [st.size]
          types := st.types ++ [flag]
          size := st.size + 1
          align := max st.align 1
          index := st.index + 1 } := by
      have hpush := inv_push_flag inv st.bitflags inv.pool_u8 flag hflag
      simpa using hpush
    obtain ⟨inv2, ext2, hb2, hm2, ha2, hs2⟩ :=
      flush_spec rest _ inv' (fun t ht => hu8 t (List.mem_cons_of_mem _ ht))
    have hv : flush_bitflags id (flag :: rest) st =
        flush_bitflags id rest
          { st with
            bitflag_indices := st.bitflag_indices ++ [st.index]
            offsets := st.offsets ++ [st.size]
            types := st.types ++ [flag]
            size := st.size + 1
            align := max st.align 1
            index := st.index + 1 } := by
      simp [flush_bitflags]
    rw [hv]
    refine ⟨inv2, ?_, by simp [hb2]; omega, by simpa using hm2,
      by rw [ha2]; exact max_eq_left inv.align_pos, by simp [hs2]; omega⟩
    refine BExt.trans ?_ ext2
    exact ⟨List.prefix_append _ _, List.prefix_append _ _, List.prefix_refl _,
      List.prefix_append _ _, Nat.le_succ _⟩

theorem layout_step_size_zero {target : Target} {st : BuildState} {col : RowType × Bool}
    (h : (layout_step id target st col).size = 0) :
    (layout_step id target st col).align = st.align ∧ st.size = 0 := by
  rcases hty : Ty.from_row_type col.1 with _ | ty
  · have hres : layout_step id target st col =
        { st with index_mappings := st.index_mappings ++ [st.index] } := by
      simp only [layout_step, hty]
    rw [hres] at h ⊢
    exact ⟨rfl, h⟩
  · exfalso
    have hres : (layout_step id target st col).size =
        (fill_padding id { st with align := max st.align (ty.align target) }
            (padding_needed_for st.size (ty.align target))).1.size +
          (fill_padding id { st with align := max st.align (ty.align target) }
            (padding_needed_for st.size (ty.align target))).2 + ty.size target := by
      simp only [layout_step, hty, id]
    rw [hres] at h
    have := ty.size_pos target
    omega

theorem foldl_step_size_zero {target : Target} :
    ∀ (cols : List (RowType × Bool)) (st : BuildState),
      (cols.foldl (layout_step id target) st).size = 0 →
      (cols.foldl (layout_step id target) st).align = st.align ∧ st.size = 0
  | [], st, h => ⟨rfl, h⟩
  | col :: rest, st, h => by
    simp only [List.foldl_cons] at h ⊢
    obtain ⟨ha, hs⟩ := foldl_step_size_zero rest (layout_step id target st col) h
    obtain ⟨ha', hs'⟩ := layout_step_size_zero hs
    exact ⟨ha.trans ha', hs'⟩

theorem Ty.bits_ge_8 (ty : Ty) (target : Target) : 8 ≤ ty.bits target := by
  have := target.pb_pos
  cases ty <;> simp [Ty.bits] <;> omega

theorem getD_mem {l : List Nat} {f : Nat} (h : f < l.length) : l.getD f 0 ∈ l := by
  rw [getD_eq_of_lt 0 h]
  exact List.get_mem l f h

theorem div_ceil_lt {f N : Nat} (h : 8 * f < N) :
    f < N / 8 + (if N % 8 != 0 then 1 else 0) := by
  by_cases h8 : N % 8 = 0 <;> simp [h8] <;> omega

theorem assign_go_sound {target : Target} {indices : List Nat} {types : List Ty}
    (hu8 : ∀ i ∈ indices, types.getD i Ty.u8 = Ty.u8)
    (N : Nat) (hlen : indices.length = N / 8 + (if N % 8 != 0 then 1 else 0)) :
    ∀ (nulls : List Bool) (f b : Nat), b ≤ 8 →
      9 * f + b + (nulls.filter id).length = N →
      ∀ e ∈ assign_bits_go target indices types f b nulls,
        ∀ i bit, e = some (i, bit) → i ∈ indices ∧ bit < 8
  | [], f, b, hb, hsum, e, he, i, bit, heq => absurd he (by simp [assign_bits_go])
  | false :: rest, f, b, hb, hsum, e, he, i, bit, heq => by
    simp only [assign_bits_go, List.mem_cons] at he
    rcases he with he | he
    · subst he
      exact absurd heq (by simp)
    · exact assign_go_sound hu8 N hlen rest f b hb (by simpa using hsum) e he i bit heq
  | true :: rest, f, b, hb, hsum, e, he, i, bit, heq => by
    have hsum' : 9 * f + b + ((rest.filter id).length + 1) = N := by
      simpa [List.filter_cons] using hsum
    by_cases hcond : b < (types.getD (indices.getD f 0) Ty.u8).bits target
    · have hflt : f < indices.length := by
        rw [hlen]
        exact div_ceil_lt (by omega)
      have hbits : (types.getD (indices.getD f 0) Ty.u8).bits target = 8 := by
        rw [hu8 _ (getD_mem hflt)]
        simp [Ty.bits]
      simp only [assign_bits_go, hcond, if_pos, List.mem_cons] at he
      rcases he with he | he
      · subst he
        rw [Option.some_inj] at heq
        obtain ⟨h1, h2⟩ := Prod.mk.injEq .. ▸ heq
        refine ⟨h1 ▸ getD_mem hflt, ?_⟩
        rw [hbits] at hcond
        omega
      · refine assign_go_sound hu8 N hlen rest f (b + 1) ?_ (by omega) e he i bit heq
        rw [hbits] at hcond
        omega
    · have hbits8 : 8 ≤ (types.getD (indices.getD f 0) Ty.u8).bits target :=
        Ty.bits_ge_8 _ target
      have hb8 : b = 8 := by omega
      have hflt : f + 1 < indices.length := by
        rw [hlen]
        exact div_ceil_lt (by omega)
      simp only [assign_bits_go, hcond, if_neg, if_false, List.mem_cons] at he
      rcases he with he | he
      · subst he
        rw [Option.some_inj] at heq
        obtain ⟨h1, h2⟩ := Prod.mk.injEq .. ▸ heq
        exact ⟨h1 ▸ getD_mem hflt, by omega⟩
      · exact assign_go_sound hu8 N hlen rest (f + 1) 0 (by omega) (by omega) e he i bit heq

theorem from_row_aux_eq (wrap : Nat → Nat) (layout : RowLayoutSrc) (target : Target) :
    from_row_aux wrap layout target =
      { size := wrap ((build2 wrap target layout).size +
            padding_needed_for (build2 wrap target layout).size
              (build2 wrap target layout).align)
        align := (build2 wrap target layout).align
        types := (build2 wrap target layout).types
        offsets := (build2 wrap target layout).offsets
        index_mappings := (build2 wrap target layout).index_mappings
        bitflag_mappings := assign_bits_go target
          (build2 wrap target layout).bitflag_indices
          (build2 wrap target layout).types 0 0 (layout.map (·.2)) } := rfl

theorem init_state_inv (layout : RowLayoutSrc) (target : Target) :
    LInv target (init_state layout) := by
  refine ⟨rfl, rfl, Nat.le_refl 1, AlignOk.one target, ?_, ?_, ?_, ?_⟩
  · intro k hk
    simp [init_state] at hk
  · intro k hk
    simp [init_state] at hk
  · intro i hi
    simp [init_state] at hi
  · intro t ht
    simp only [init_state, bits_to_bitflags] at ht
    exact (List.eq_of_mem_replicate ht)

theorem build2_spec (layout : RowLayoutSrc) (target : Target) :
    LInv target (build2 id target layout) ∧
    (build2 id target layout).bitflag_indices.length
      = (bits_to_bitflags (layout.filter (·.2)).length).length ∧
    (build2 id target layout).index_mappings
      = (build1 id target layout).index_mappings ∧
    (build1 id target layout).index_mappings.length = layout.length ∧
    BExt (build1 id target layout) (build2 id target layout) ∧
    (build2 id target layout).align = (build1 id target layout).align ∧
    (build2 id target layout).size
      = (build1 id target layout).size + (build1 id target layout).bitflags.length := by
  obtain ⟨inv1, ext1, hbud1, hlen1⟩ :=
    foldl_step_spec layout (init_state layout) (init_state_inv layout target)
  have inv1' : LInv target { build1 id target layout with bitflags := [] } :=
    ⟨inv1.len_off, inv1.idx_eq, inv1.align_pos, inv1.align_ok, inv1.entry_align,
      inv1.entry_fit, inv1.flags_idx, by intro t ht; simp at ht⟩
  obtain ⟨inv2, ext2, hbud2, him2, halign2, hsize2⟩ :=
    flush_spec (build1 id target layout).bitflags _ inv1'
      (fun t ht => inv1.pool_u8 t ht)
  refine ⟨inv2, ?_, him2, ?_, ?_, halign2, hsize2⟩
  · have hb2 : (build2 id target layout).bitflag_indices.length
        = (build1 id target layout).bitflag_indices.length
          + (build1 id target layout).bitflags.length := by
      simpa using hbud2
    have hb1 : (build1 id target layout).bitflag_indices.length
        + (build1 id target layout).bitflags.length
        = (init_state layout).bitflag_indices.length
          + (init_state layout).bitflags.length := hbud1
    rw [hb2, hb1]
    simp [init_state]
  · simpa [init_state, build1] using hlen1
  · refine BExt.trans ?_ ext2
    exact ⟨List.prefix_refl _, List.prefix_refl _, List.prefix_refl _,
      List.prefix_refl _, Nat.le_refl _⟩

theorem from_row_def (layout : RowLayoutSrc) (target : Target) :
    Layout.from_row layout target = from_row_aux id layout target := rfl

theorem bits_to_bitflags_length (n : Nat) :
    (bits_to_bitflags n).length = n / 8 + (if n % 8 != 0 then 1 else 0) := by
  simp [bits_to_bitflags]

theorem trues_length (layout : RowLayoutSrc) :
    ((layout.map (·.2)).filter id).length = (layout.filter (·.2)).length := by
  induction layout with
  | nil => rfl
  | cons hd tl ih => cases h : hd.2 <;> simp [List.filter_cons, h, ih]

theorem from_row_master (layout : RowLayoutSrc) (target : Target) :
    (Layout.from_row layout target).size % (Layout.from_row layout target).align = 0 ∧
    1 ≤ (Layout.from_row layout target).align ∧
    AlignOk target (Layout.from_row layout target).align ∧
    ((Layout.from_row layout target).size = 0 → (Layout.from_row layout target).align = 1) ∧
    (∀ c, (hc : c < layout.length) → (layout.get ⟨c, hc⟩).1 ≠ RowType.unit →
      (Layout.from_row layout target).offset_of c %
          ((Layout.from_row layout target).type_of c).align target = 0 ∧
      (Layout.from_row layout target).offset_of c +
          ((Layout.from_row layout target).type_of c).size target
        ≤ (Layout.from_row layout target).size) ∧
    (∀ c i bit,
      (Layout.from_row layout target).bitflag_mappings.getD c none = some (i, bit) →
      bit < 8 ∧ (Layout.from_row layout target).types.get? i = some Ty.u8 ∧
      ∃ off, (Layout.from_row layout target).offsets.get? i = some off ∧
        off + 1 ≤ (Layout.from_row layout target).size) := by
  obtain ⟨inv2, hbud, him, hlen1, extb, halignb, hsizeb⟩ := build2_spec layout target
  rw [from_row_def, from_row_aux_eq]
  simp only [id]
  have hpadsize : (build2 id target layout).size
      ≤ (build2 id target layout).size +
        padding_needed_for (build2 id target layout).size (build2 id target layout).align :=
    Nat.le_add_right _ _
  refine ⟨?_, inv2.align_pos, inv2.align_ok, ?_, ?_, ?_⟩
  · exact pad_mod _ _ inv2.align_pos
  · intro hz
    have hz2 : (build2 id target layout).size = 0 := by omega
    have hz1 : (build1 id target layout).size = 0 := by omega
    obtain ⟨ha1, _⟩ := foldl_step_size_zero layout (init_state layout) hz1
    rw [halignb]
    exact ha1.trans rfl
  · intro c hc hnu
    have hpos := foldl_step_im layout (init_state layout) (init_state_inv layout target)
      c hc hnu
    simp only [init_state, List.length_nil, Nat.zero_add] at hpos
    have hv : (build2 id target layout).index_mappings.getD c 0
        < (build1 id target layout).types.length := by
      rw [him]
      exact hpos
    have hvlt : (build2 id target layout).index_mappings.getD c 0
        < (build2 id target layout).types.length :=
      Nat.lt_of_lt_of_le hv extb.ty.length_le
    constructor
    · exact inv2.entry_align _ hvlt
    · exact Nat.le_trans (inv2.entry_fit _ hvlt) hpadsize
  · intro c i bit hmap
    have hmem := mem_of_getD_eq_some hmap
    have hsound := assign_go_sound
      (fun j hj => (inv2.flags_idx j hj).2)
      (layout.filter (·.2)).length
      (by rw [hbud, bits_to_bitflags_length])
      (layout.map (·.2)) 0 0 (by omega)
      (by simpa using trues_length layout)
      _ hmem i bit rfl
    obtain ⟨hiin, hbit⟩ := hsound
    obtain ⟨hilt, hity⟩ := inv2.flags_idx i hiin
    have hoff : i < (build2 id target layout).offsets.length := by
      rw [inv2.len_off]
      exact hilt
    refine ⟨hbit, ?_, (build2 id target layout).offsets.get ⟨i, hoff⟩, ?_, ?_⟩
    · rw [List.get?_eq_get hilt, ← getD_eq_of_lt Ty.u8 hilt, hity]
    · rw [List.get?_eq_get hoff]
    · have := inv2.entry_fit i hilt
      rw [← getD_eq_of_lt 0 hoff] at *
      rw [hity] at this
      simp only [Ty.size] at this
      omega

theorem or_mask_land_ne (x i : Nat) : (x ||| (1 <<< i)) &&& (1 <<< i) ≠ 0 := by
  have h1 : (1 : Nat) <<< i = 2 ^ i := by rw [Nat.shiftLeft_eq, one_mul]
  rw [h1]
  intro h0
  have := congrArg (Nat.testBit · i) h0
  simp [Nat.testBit_two_pow_self] at this

theorem andc_mask_land_eq (x : Nat) {i : Nat} (h : i < 8) :
    (x &&& (255 ^^^ (1 <<< i))) &&& (1 <<< i) = 0 := by
  have h1 : (1 : Nat) <<< i = 2 ^ i := by rw [Nat.shiftLeft_eq, one_mul]
  rw [h1]
  apply Nat.eq_of_testBit_eq
  intro j
  simp only [Nat.testBit_and, Nat.testBit_xor, Nat.zero_testBit]
  by_cases hij : i = j
  · subst hij
    have h255 : (255 : Nat).testBit i = true := by
      have h8 : (255 : Nat) = 2 ^ 8 - 1 := by norm_num
      rw [h8, Nat.testBit_two_pow_sub_one]
      simpa using h
    simp [h255, Nat.testBit_two_pow_self]
  · simp [Nat.testBit_two_pow_of_ne hij]

theorem set_null_imm_roundtrip (sigil : NullSigil) (b : Bool) {bit : Nat}
    (hbit : bit < 8) (byte : Nat) :
    is_null_bit sigil bit (set_null_imm_byte sigil b bit byte) = b := by
  cases sigil <;> cases b <;>
    simp [is_null_bit, set_null_imm_byte, NullSigil.is_one, NullSigil.is_zero,
      or_mask_land_ne, andc_mask_land_eq _ hbit]

theorem set_null_val_roundtrip (sigil : NullSigil) (v : Nat) {bit : Nat}
    (hbit : bit < 8) (byte : Nat) :
    is_null_bit sigil bit (set_null_val_byte sigil v bit byte) = decide (v ≠ 0) := by
  cases sigil <;> by_cases hv : v = 0 <;>
    simp [is_null_bit, set_null_val_byte, NullSigil.is_one, NullSigil.is_zero, hv,
      or_mask_land_ne, andc_mask_land_eq _ hbit]

theorem getD_set_self {l : List Nat} {i : Nat} (a : Nat) (h : i < l.length) :
    (l.set i a).getD i 0 = a := by
  rw [List.getD_eq_getElem?_getD, List.getElem?_set_self (by simpa using h)]
  rfl

theorem nullability_of_from_row {layout : RowLayoutSrc} {target : Target} {c : Nat}
    (hnull : (Layout.from_row layout target).is_nullable c = true) :
    ∃ off bit, (Layout.from_row layout target).nullability_of c = some (Ty.u8, off, bit) ∧
      bit < 8 ∧ off + 1 ≤ (Layout.from_row layout target).size := by
  unfold Layout.is_nullable at hnull
  rcases hm : (Layout.from_row layout target).bitflag_mappings.getD c none with _ | ⟨i, bit⟩
  · rw [hm] at hnull
    simp at hnull
  · obtain ⟨_, _, _, _, _, h6⟩ := from_row_master layout target
    obtain ⟨hbit, hty, off, hoff, hfit⟩ := h6 c i bit hm
    refine ⟨off, bit, ?_, hbit, hfit⟩
    simp only [Layout.nullability_of, hm, hty, hoff]

/-- C3: on any row of any layout, for every nullable column, both
settings of the null sigil and both encodings of the boolean rvalue
(immediate and computed), the lowered SetNull followed by the lowered
IsNull yields the boolean that was stored. -/
theorem setnull_isnull_roundtrip (layout : RowLayoutSrc) (target : Target)
    (sigil : NullSigil) (c : Nat) (row : List Nat) (b : Bool) (v : Nat)
    (hlen : row.length = (Layout.from_row layout target).size)
    (hnull : (Layout.from_row layout target).is_nullable c = true)
    (hv : v ≠ 0 ↔ b = true) :
    (row_set_null_imm sigil (Layout.from_row layout target) c b row).bind
        (row_is_null sigil (Layout.from_row layout target) c) = some b ∧
    (row_set_null_val sigil (Layout.from_row layout target) c v row).bind
        (row_is_null sigil (Layout.from_row layout target) c) = some b := by
  obtain ⟨off, bit, hn, hbit, hfit⟩ := nullability_of_from_row hnull
  have hofflt : off < row.length := by omega
  have hdec : decide (v ≠ 0) = b := by
    cases b
    · simp only [decide_eq_false_iff_not]
      intro hne
      exact absurd (hv.mp hne) (by simp)
    · simp only [decide_eq_true_eq]
      exact hv.mpr rfl
  constructor
  · simp only [row_set_null_imm, row_is_null, hn, Option.map_some', Option.some_bind]
    rw [getD_set_self _ hofflt]
    rw [set_null_imm_roundtrip sigil b hbit]
  · simp only [row_set_null_val, row_is_null, hn, Option.map_some', Option.some_bind]
    rw [getD_set_self _ hofflt]
    rw [set_null_val_roundtrip sigil v hbit, hdec]

/-- C5: every layout produced by `Layout::from_row` has `size % align = 0`,
`align` among `{1, 2, 4, 8, pointer_bytes}`, and every non-`Unit` column is
placed at an offset aligned to its type with the field contained in `size`. -/
theorem from_row_layout_invariants (layout : RowLayoutSrc) (target : Target)
    (c : Nat) (hc : c < layout.length)
    (hnu : (layout.get ⟨c, hc⟩).1 ≠ RowType.unit) :
    (Layout.from_row layout target).size % (Layout.from_row layout target).align = 0 ∧
    ((Layout.from_row layout target).align = 1 ∨ (Layout.from_row layout target).align = 2 ∨
      (Layout.from_row layout target).align = 4 ∨ (Layout.from_row layout target).align = 8 ∨
      (Layout.from_row layout target).align = target.pointerBytes) ∧
    (Layout.from_row layout target).offset_of c %
        ((Layout.from_row layout target).type_of c).align target = 0 ∧
    (Layout.from_row layout target).offset_of c +
        ((Layout.from_row layout target).type_of c).size target
      ≤ (Layout.from_row layout target).size := by
  obtain ⟨h1, _, h3, _, h5, _⟩ := from_row_master layout target
  exact ⟨h1, h3, (h5 c hc hnu).1, (h5 c hc hnu).2⟩

theorem from_row_layout_invariants_witness :
    (0 < ([(RowType.u32, true), (RowType.u16, true)] : RowLayoutSrc).length) ∧
    (Layout.from_row [(RowType.u32, true), (RowType.u16, true)] target64).size %
        (Layout.from_row [(RowType.u32, true), (RowType.u16, true)] target64).align = 0 ∧
    ((Layout.from_row [(RowType.u32, true), (RowType.u16, true)] target64).align = 1 ∨
      (Layout.from_row [(RowType.u32, true), (RowType.u16, true)] target64).align = 2 ∨
      (Layout.from_row [(RowType.u32, true), (RowType.u16, true)] target64).align = 4 ∨
      (Layout.from_row [(RowType.u32, true), (RowType.u16, true)] target64).align = 8 ∨
      (Layout.from_row [(RowType.u32, true), (RowType.u16, true)] target64).align
        = target64.pointerBytes) ∧
    (Layout.from_row [(RowType.u32, true), (RowType.u16, true)] target64).offset_of 0 %
        ((Layout.from_row [(RowType.u32, true), (RowType.u16, true)] target64).type_of 0).align
          target64 = 0 ∧
    (Layout.from_row [(RowType.u32, true), (RowType.u16, true)] target64).offset_of 0 +
        ((Layout.from_row [(RowType.u32, true), (RowType.u16, true)] target64).type_of 0).size
          target64
      ≤ (Layout.from_row [(RowType.u32, true), (RowType.u16, true)] target64).size :=
  ⟨by decide, from_row_layout_invariants [(RowType.u32, true), (RowType.u16, true)] target64 0 (by decide)
    (by decide)⟩

/-- C10: for every layout produced by `Layout::from_row`, `nullability_of`
panics (modelled as `none`) exactly on non-nullable columns, and on nullable
columns returns the bitset byte's type, offset and bit without panicking. -/
theorem nullability_of_total (layout : RowLayoutSrc) (target : Target) (c : Nat) :
    ((Layout.from_row layout target).is_nullable c = false →
      (Layout.from_row layout target).nullability_of c = none) ∧
    ((Layout.from_row layout target).is_nullable c = true →
      ∃ off bit,
        (Layout.from_row layout target).nullability_of c = some (Ty.u8, off, bit)) := by
  constructor
  · intro h
    unfold Layout.is_nullable at h
    rcases hm : (Layout.from_row layout target).bitflag_mappings.getD c none with _ | p
    · simp only [Layout.nullability_of, hm]
    · rw [hm] at h
      simp at h
  · intro h
    obtain ⟨off, bit, hn, _, _⟩ := nullability_of_from_row h
    exact ⟨off, bit, hn⟩

theorem nullability_of_total_witness :
    ((Layout.from_row [(RowType.u32, true), (RowType.u16, false)] target64).is_nullable 1
        = false ∧
      (Layout.from_row [(RowType.u32, true), (RowType.u16, false)] target64).nullability_of 1
        = none) ∧
    ((Layout.from_row [(RowType.u32, true), (RowType.u16, false)] target64).is_nullable 0
        = true ∧
      ∃ off bit,
        (Layout.from_row [(RowType.u32, true), (RowType.u16, false)] target64).nullability_of 0
          = some (Ty.u8, off, bit)) :=
  ⟨⟨by decide, (nullability_of_total [(RowType.u32, true), (RowType.u16, false)] target64 1).1 (by decide)⟩,
    ⟨by decide, (nullability_of_total [(RowType.u32, true), (RowType.u16, false)] target64 0).2 (by decide)⟩⟩

/-- C9: `alloc` on a zero-sized layout returns the non-null, well-aligned
dangling sentinel without consulting the system allocator (the result is
independent of the allocator oracle), and on a non-zero-sized layout requests
`size` bytes at `align` and returns `none` exactly when the allocator fails. -/
theorem alloc_spec (layout : RowLayoutSrc) (target : Target) (sys1 sys2 : Nat → Nat → Nat) :
    ((Layout.from_row layout target).size = 0 →
      (Layout.from_row layout target).alloc sys1 = some 1 ∧
      (Layout.from_row layout target).alloc sys1 = (Layout.from_row layout target).alloc sys2 ∧
      (1 : Nat) % (Layout.from_row layout target).align = 0 ∧ (1 : Nat) ≠ 0) ∧
    ((Layout.from_row layout target).size ≠ 0 →
      ((Layout.from_row layout target).alloc sys1 = none ↔
        sys1 (Layout.from_row layout target).size (Layout.from_row layout target).align = 0) ∧
      (sys1 (Layout.from_row layout target).size (Layout.from_row layout target).align ≠ 0 →
        (Layout.from_row layout target).alloc sys1
          = some (sys1 (Layout.from_row layout target).size
              (Layout.from_row layout target).align))) := by
  obtain ⟨_, _, _, h4, _, _⟩ := from_row_master layout target
  constructor
  · intro hz
    have hzs : (Layout.from_row layout target).is_zero_sized = true := by
      simp [Layout.is_zero_sized, hz]
    rw [h4 hz]
    simp [Layout.alloc, hzs]
  · intro hnz
    have hzs : (Layout.from_row layout target).is_zero_sized = false := by
      simp [Layout.is_zero_sized, hnz]
    by_cases hsys : sys1 (Layout.from_row layout target).size
        (Layout.from_row layout target).align = 0 <;>
      simp [Layout.alloc, hzs, hsys]

theorem alloc_spec_witness :
    ((Layout.from_row [(RowType.unit, false), (RowType.unit, false)] target64).size = 0 ∧
      (Layout.from_row [(RowType.unit, false), (RowType.unit, false)] target64).alloc
          (fun _ _ => 0) = some 1 ∧
      (1 : Nat) % (Layout.from_row [(RowType.unit, false), (RowType.unit, false)] target64).align
        = 0) ∧
    ((Layout.from_row [(RowType.u32, false)] target64).size ≠ 0 ∧
      ((Layout.from_row [(RowType.u32, false)] target64).alloc (fun _ _ => 0) = none ↔
        (fun (_ _ : Nat) => (0 : Nat)) (Layout.from_row [(RowType.u32, false)] target64).size
            (Layout.from_row [(RowType.u32, false)] target64).align = 0)) :=
  ⟨⟨by decide,
      ((alloc_spec [(RowType.unit, false), (RowType.unit, false)] target64 (fun _ _ => 0)
          (fun _ _ => 4096)).1 (by decide)).1,
      ((alloc_spec [(RowType.unit, false), (RowType.unit, false)] target64 (fun _ _ => 0)
          (fun _ _ => 4096)).1 (by decide)).2.2.1⟩,
    ⟨by decide,
      ((alloc_spec [(RowType.u32, false)] target64 (fun _ _ => 0) (fun _ _ => 0)).2
          (by decide)).1⟩⟩

/-- C6: scenario S2, columns `[U32, U16]` both nullable on a 64-bit target:
`align = 4`, `size = 8`, a single bitset byte at offset 6, and null flags
column 0 to (byte at 6, bit 0) and column 1 to (byte at 6, bit 1). -/
theorem from_row_s2_nullability_reuse :
    (Layout.from_row [(RowType.u32, true), (RowType.u16, true)] target64).align = 4 ∧
    (Layout.from_row [(RowType.u32, true), (RowType.u16, true)] target64).size = 8 ∧
    (Layout.from_row [(RowType.u32, true), (RowType.u16, true)] target64).types
      = [Ty.u32, Ty.u16, Ty.u8] ∧
    (Layout.from_row [(RowType.u32, true), (RowType.u16, true)] target64).offsets
      = [0, 4, 6] ∧
    (Layout.from_row [(RowType.u32, true), (RowType.u16, true)] target64).nullability_of 0
      = some (Ty.u8, 6, 0) ∧
    (Layout.from_row [(RowType.u32, true), (RowType.u16, true)] target64).nullability_of 1
      = some (Ty.u8, 6, 1) ∧
    ((Layout.from_row [(RowType.u32, true), (RowType.u16, true)] target64).types.filter
        (· == Ty.u8)).length = 1 := by
  decide

/-- C8: the machine signature has exactly one pointer-width parameter per
argument layout, and a pointer-width return value iff the return layout is
non-zero-sized. -/
theorem build_signature_spec (cache : Nat → RowLayoutSrc) (target : Target) (sig : Signature) :
    (build_signature cache target sig).params.length = sig.args.length ∧
    (∀ p ∈ (build_signature cache target sig).params, p = pointer_type target) ∧
    ((build_signature cache target sig).returns = [pointer_type target] ↔
      (Layout.from_row (cache sig.ret) target).size ≠ 0) ∧
    ((build_signature cache target sig).returns = [] ↔
      (Layout.from_row (cache sig.ret) target).size = 0) := by
  refine ⟨by simp [build_signature], ?_, ?_, ?_⟩
  · intro p hp
    simp only [build_signature, List.mem_map] at hp
    obtain ⟨_, _, rfl⟩ := hp
    rfl
  · by_cases h : (Layout.from_row (cache sig.ret) target).size = 0 <;>
      simp [build_signature, Layout.is_zero_sized, h]
  · by_cases h : (Layout.from_row (cache sig.ret) target).size = 0 <;>
      simp [build_signature, Layout.is_zero_sized, h]

/-- C7 counterexample: the emitted `brz cond, truthy; jump falsy` pair
transfers control to the falsy block when `cond = 1` (true), whereas the
claimed "if cond then truthy else falsy" semantics selects the truthy block;
moreover an immediate condition is rejected (the `todo` panic), not accepted. -/
theorem branch_polarity_counterexample :
    codegen_branch (RValueV.expr 1) 0 1
      = some ([CInst.brz 1 0, CInst.jump 1], [0, 1]) ∧
    run_branch [CInst.brz 1 0, CInst.jump 1] = some 1 ∧
    branch_spec_if_then_else 1 0 1 = 0 ∧
    (1 : Nat) ≠ 0 ∧
    codegen_branch (RValueV.imm (Constant.bool true)) 0 1 = none := by
  decide

/-- C7 (amended): lowering `Branch(cond, truthy, falsy)` emits a branch-if-zero
on `cond` to the truthy block followed by an unconditional jump to the falsy
block and enqueues both successors; this convention is equivalent to
"if cond = 0 then truthy else falsy" (i.e. "if cond then falsy else truthy"),
and `cond` must be an expression - an immediate condition is unimplemented
(it panics, modelled as `none`). -/
theorem branch_lowering_amended (v truthy falsy : Nat) (c : Constant) :
    codegen_branch (RValueV.expr v) truthy falsy
      = some ([CInst.brz v truthy, CInst.jump falsy], [truthy, falsy]) ∧
    run_branch [CInst.brz v truthy, CInst.jump falsy]
      = some (if v = 0 then truthy else falsy) ∧
    codegen_branch (RValueV.imm c) truthy falsy = none := by
  refine ⟨rfl, ?_, rfl⟩
  by_cases h : v = 0 <;> simp [run_branch, h]

/-- C1: the claimed injectivity of the null-flag assignment fails on the code:
with ten nullable columns, the ninth nullable column (the one assigned to the
second bitset byte after the first fills) and the tenth both receive the same
pair (second bitset byte, bit 0).  Evaluates `Layout::from_row` at the failing
input. -/
theorem from_row_ten_nullables_duplicate_pair :
    (Layout.from_row (List.replicate 10 (RowType.bool, true)) target64).bitflag_mappings.getD
        8 none = some (11, 0) ∧
    (Layout.from_row (List.replicate 10 (RowType.bool, true)) target64).bitflag_mappings.getD
        9 none = some (11, 0) ∧
    (8 : Nat) ≠ 9 ∧
    (Layout.from_row (List.replicate 10 (RowType.bool, true)) target64).nullability_of 8
      = (Layout.from_row (List.replicate 10 (RowType.bool, true)) target64).nullability_of 9 := by
  decide

/-- C2: the `NullRow` memset fill byte is the null sigil's enum discriminant,
`0x01` under sigil `One` rather than the claimed `0xFF` (and `0x00` under
`Zero`, as claimed).  Consequently a fresh `NullRow` of a layout with two
nullable columns reads back as not-null on the column whose flag is bit 1,
violating the code's own `NullRow` contract. -/
theorem null_row_fill_byte_not_ff :
    NullSigil.toByte NullSigil.one = 1 ∧
    NullSigil.toByte NullSigil.one ≠ 255 ∧
    NullSigil.toByte NullSigil.zero = 0 ∧
    null_row_bytes NullSigil.one
        (Layout.from_row [(RowType.bool, true), (RowType.bool, true)] target64)
      = [1, 1, 1] ∧
    stack_slot_for_layout
        (Layout.from_row [(RowType.bool, true), (RowType.bool, true)] target64)
      = (Layout.from_row [(RowType.bool, true), (RowType.bool, true)] target64).size ∧
    row_is_null NullSigil.one
        (Layout.from_row [(RowType.bool, true), (RowType.bool, true)] target64) 1
        (null_row_bytes NullSigil.one
          (Layout.from_row [(RowType.bool, true), (RowType.bool, true)] target64))
      = some false ∧
    null_row_bytes NullSigil.zero
        (Layout.from_row [(RowType.bool, true), (RowType.bool, true)] target64)
      = [0, 0, 0] := by
  decide

theorem filter_snd_replicate_u64 (n : Nat) :
    (List.replicate n ((RowType.u64, false) : RowType × Bool)).filter (·.2) = [] := by
  induction n with
  | zero => rfl
  | succ k ih => simp [List.replicate_succ, List.filter_cons, ih]

theorem layout_step_u64_wrap {st : BuildState} (h8 : st.size % 8 = 0) :
    layout_step (· % 2 ^ 32) target64 st (RowType.u64, false) =
      { st with
        align := max st.align 8
        offsets := st.offsets ++ [st.size % 2 ^ 32]
        size := (st.size % 2 ^ 32 + 8) % 2 ^ 32
        index_mappings := st.index_mappings ++ [st.index]
        types := st.types ++ [Ty.u64]
        index := st.index + 1 } := by
  have hpad : padding_needed_for st.size 8 = 0 := by
    simp [padding_needed_for, h8]
  simp only [layout_step, Ty.from_row_type, Ty.align, Ty.size, hpad, fill_padding,
    Nat.add_zero]

theorem layout_step_u64_id {st : BuildState} (h8 : st.size % 8 = 0) :
    layout_step id target64 st (RowType.u64, false) =
      { st with
        align := max st.align 8
        offsets := st.offsets ++ [st.size]
        size := st.size + 8
        index_mappings := st.index_mappings ++ [st.index]
        types := st.types ++ [Ty.u64]
        index := st.index + 1 } := by
  have hpad : padding_needed_for st.size 8 = 0 := by
    simp [padding_needed_for, h8]
  simp only [layout_step, Ty.from_row_type, Ty.align, Ty.size, hpad, fill_padding, id,
    Nat.add_zero]

theorem foldl_u64_wrap :
    ∀ (k : Nat) (st : BuildState), st.size % 8 = 0 → st.size < 2 ^ 32 → st.align ≤ 8 →
      (List.foldl (layout_step (· % 2 ^ 32) target64) st
          (List.replicate k (RowType.u64, false))).size
        = (st.size + 8 * k) % 2 ^ 32 ∧
      (k ≠ 0 →
        (List.foldl (layout_step (· % 2 ^ 32) target64) st
          (List.replicate k (RowType.u64, false))).align = 8) ∧
      (List.foldl (layout_step (· % 2 ^ 32) target64) st
          (List.replicate k (RowType.u64, false))).bitflags = st.bitflags
  | 0, st, h8, hlt, ha => by
    refine ⟨?_, fun h => absurd rfl h, rfl⟩
    simp only [List.replicate, List.foldl_nil, Nat.mul_zero, Nat.add_zero]
    rw [Nat.mod_eq_of_lt hlt]
  | k + 1, st, h8, hlt, ha => by
    rw [List.replicate_succ, List.foldl_cons, layout_step_u64_wrap h8,
      Nat.mod_eq_of_lt hlt]
    have hdvd : (8 : Nat) ∣ 2 ^ 32 := ⟨2 ^ 29, by norm_num⟩
    obtain ⟨hsz, hal, hbf⟩ := foldl_u64_wrap k
      { st with
        align := max st.align 8
        offsets := st.offsets ++ [st.size]
        size := (st.size + 8) % 2 ^ 32
        index_mappings := st.index_mappings ++ [st.index]
        types := st.types ++ [Ty.u64]
        index := st.index + 1 }
      (by
        show (st.size + 8) % 2 ^ 32 % 8 = 0
        rw [Nat.mod_mod_of_dvd _ hdvd]
        omega)
      (by
        show (st.size + 8) % 2 ^ 32 < 2 ^ 32
        exact Nat.mod_lt _ (by norm_num))
      (by
        show max st.align 8 ≤ 8
        omega)
    refine ⟨?_, ?_, hbf⟩
    · rw [hsz]
      show ((st.size + 8) % 2 ^ 32 + 8 * k) % 2 ^ 32 = (st.size + 8 * (k + 1)) % 2 ^ 32
      rw [Nat.mod_add_mod]
      ring_nf
    · intro _
      rcases Nat.eq_zero_or_pos k with hk | hk
      · subst hk
        simp only [List.replicate, List.foldl_nil]
        show max st.align 8 = 8
        omega
      · exact hal (by omega)

theorem foldl_u64_id :
    ∀ (k : Nat) (st : BuildState), st.size % 8 = 0 → st.align ≤ 8 →
      (List.foldl (layout_step id target64) st
          (List.replicate k (RowType.u64, false))).size = st.size + 8 * k ∧
      (k ≠ 0 →
        (List.foldl (layout_step id target64) st
          (List.replicate k (RowType.u64, false))).align = 8) ∧
      (List.foldl (layout_step id target64) st
          (List.replicate k (RowType.u64, false))).bitflags = st.bitflags
  | 0, st, h8, ha => by
    refine ⟨?_, fun h => absurd rfl h, rfl⟩
    simp
  | k + 1, st, h8, ha => by
    rw [List.replicate_succ, List.foldl_cons, layout_step_u64_id h8]
    obtain ⟨hsz, hal, hbf⟩ := foldl_u64_id k
      { st with
        align := max st.align 8
        offsets := st.offsets ++ [st.size]
        size := st.size + 8
        index_mappings := st.index_mappings ++ [st.index]
        types := st.types ++ [Ty.u64]
        index := st.index + 1 }
      (by show (st.size + 8) % 8 = 0; omega)
      (by show max st.align 8 ≤ 8; omega)
    refine ⟨?_, ?_, hbf⟩
    · rw [hsz]
      show st.size + 8 + 8 * k = st.size + 8 * (k + 1)
      ring
    · intro _
      rcases Nat.eq_zero_or_pos k with hk | hk
      · subst hk
        simp only [List.replicate, List.foldl_nil]
        show max st.align 8 = 8
        omega
      · exact hal (by omega)

theorem from_row_u32_def (layout : RowLayoutSrc) (target : Target) :
    Layout.from_row_u32 layout target = from_row_aux (· % 2 ^ 32) layout target := rfl

theorem pad_zero (a : Nat) : padding_needed_for 0 a = 0 := by
  simp [padding_needed_for]


theorem flush_nil_size (wrap : Nat → Nat) (st : BuildState) :
    (flush_bitflags wrap [] st).size = st.size := rfl

theorem flush_nil_align (wrap : Nat → Nat) (st : BuildState) :
    (flush_bitflags wrap [] st).align = st.align := rfl

theorem upd_bitflags_size (st : BuildState) :
    ({ st with bitflags := [] } : BuildState).size = st.size := rfl

theorem upd_bitflags_align (st : BuildState) :
    ({ st with bitflags := [] } : BuildState).align = st.align := rfl

theorem from_row_aux_size (wrap : Nat → Nat) (layout : RowLayoutSrc) (target : Target) :
    (from_row_aux wrap layout target).size
      = wrap ((build2 wrap target layout).size +
          padding_needed_for (build2 wrap target layout).size
            (build2 wrap target layout).align) := rfl

theorem build2_of_bitflags_nil {wrap : Nat → Nat} {target : Target} {layout : RowLayoutSrc}
    (h : (build1 wrap target layout).bitflags = []) :
    (build2 wrap target layout).size = (build1 wrap target layout).size ∧
    (build2 wrap target layout).align = (build1 wrap target layout).align := by
  unfold build2
  rw [h]
  exact ⟨rfl, rfl⟩

theorem from_row_aux_size_of {wrap : Nat → Nat} {target : Target} {layout : RowLayoutSrc}
    (h : (build1 wrap target layout).bitflags = []) :
    (from_row_aux wrap layout target).size
      = wrap ((build1 wrap target layout).size +
          padding_needed_for (build1 wrap target layout).size
            (build1 wrap target layout).align) := by
  rw [from_row_aux_size, (build2_of_bitflags_nil h).1, (build2_of_bitflags_nil h).2]

set_option maxRecDepth 8000 in
/-- C4: under release-mode `u32` semantics, `Layout::from_row` on `2 ^ 29`
non-nullable `U64` columns silently wraps its size to `0` and even reports the
4 GiB layout as zero-sized, instead of failing hard; the idealised size is
`2 ^ 32`, which exceeds `u32::MAX`. -/
theorem from_row_u32_silent_wrap :
    (Layout.from_row_u32 (List.replicate (2 ^ 29) (RowType.u64, false)) target64).size = 0 ∧
    (Layout.from_row_u32 (List.replicate (2 ^ 29) (RowType.u64, false)) target64).is_zero_sized
      = true ∧
    (Layout.from_row (List.replicate (2 ^ 29) (RowType.u64, false)) target64).size
      = 2 ^ 32 := by
  have hrec : init_state (List.replicate (2 ^ 29) (RowType.u64, false)) =
      ⟨[], [], [], [], [], 0, 0, 1⟩ := by
    unfold init_state
    rw [filter_snd_replicate_u64]
    rfl
  have hs0 : (init_state (List.replicate (2 ^ 29) (RowType.u64, false))).size = 0 :=
    congrArg BuildState.size hrec
  have hb0 : (init_state (List.replicate (2 ^ 29) (RowType.u64, false))).bitflags = [] :=
    congrArg BuildState.bitflags hrec
  have ha0 : (init_state (List.replicate (2 ^ 29) (RowType.u64, false))).align = 1 :=
    congrArg BuildState.align hrec
  have harith_w : ((0 : Nat) + 8 * 2 ^ 29) % 2 ^ 32 = 0 := by norm_num
  have harith_i : (0 : Nat) + 8 * 2 ^ 29 = 2 ^ 32 := by norm_num
  obtain ⟨hsz_w, hal_w, hbf_w⟩ := foldl_u64_wrap (2 ^ 29)
    (init_state (List.replicate (2 ^ 29) (RowType.u64, false)))
    (by rw [hs0]) (by rw [hs0]; norm_num) (by rw [ha0]; norm_num)
  obtain ⟨hsz_i, hal_i, hbf_i⟩ := foldl_u64_id (2 ^ 29)
    (init_state (List.replicate (2 ^ 29) (RowType.u64, false)))
    (by rw [hs0]) (by rw [ha0]; norm_num)
  rw [hs0] at hsz_w hsz_i
  have hsz_w1 : (build1 (· % 2 ^ 32) target64
      (List.replicate (2 ^ 29) (RowType.u64, false))).size = 0 := hsz_w.trans harith_w
  have hsz_i1 : (build1 id target64
      (List.replicate (2 ^ 29) (RowType.u64, false))).size = 2 ^ 32 := hsz_i.trans harith_i
  have hal_i1 : (build1 id target64
      (List.replicate (2 ^ 29) (RowType.u64, false))).align = 8 := hal_i (by norm_num)
  have hbf_w1 : (build1 (· % 2 ^ 32) target64
      (List.replicate (2 ^ 29) (RowType.u64, false))).bitflags = [] := hbf_w.trans hb0
  have hbf_i1 : (build1 id target64
      (List.replicate (2 ^ 29) (RowType.u64, false))).bitflags = [] := hbf_i.trans hb0
  have hpad32 : padding_needed_for (2 ^ 32) 8 = 0 := by norm_num [padding_needed_for]
  have hw : (Layout.from_row_u32 (List.replicate (2 ^ 29) (RowType.u64, false)) target64).size
      = 0 := by
    rw [from_row_u32_def, from_row_aux_size_of hbf_w1, hsz_w1, pad_zero]
    rfl
  refine ⟨hw, ?_, ?_⟩
  · unfold Layout.is_zero_sized
    rw [hw]
    rfl
  · rw [from_row_def, from_row_aux_size_of hbf_i1, hsz_i1, hal_i1, hpad32]
    rfl

theorem setnull_isnull_roundtrip_witness :
    (List.replicate 8 0).length
      = (Layout.from_row [(RowType.u32, true), (RowType.u16, true)] target64).size ∧
    (Layout.from_row [(RowType.u32, true), (RowType.u16, true)] target64).is_nullable 0
      = true ∧
    ((1 : Nat) ≠ 0 ↔ true = true) ∧
    (row_set_null_imm NullSigil.one
          (Layout.from_row [(RowType.u32, true), (RowType.u16, true)] target64) 0 true
          (List.replicate 8 0)).bind
        (row_is_null NullSigil.one
          (Layout.from_row [(RowType.u32, true), (RowType.u16, true)] target64) 0)
      = some true ∧
    (row_set_null_val NullSigil.one
          (Layout.from_row [(RowType.u32, true), (RowType.u16, true)] target64) 0 1
          (List.replicate 8 0)).bind
        (row_is_null NullSigil.one
          (Layout.from_row [(RowType.u32, true), (RowType.u16, true)] target64) 0)
      = some true :=
  ⟨by decide, by decide, by decide,
    (setnull_isnull_roundtrip [(RowType.u32, true), (RowType.u16, true)] target64
      NullSigil.one 0 (List.replicate 8 0) true 1 (by decide) (by decide) (by decide)).1,
    (setnull_isnull_roundtrip [(RowType.u32, true), (RowType.u16, true)] target64
      NullSigil.one 0 (List.replicate 8 0) true 1 (by decide) (by decide) (by decide)).2⟩
